import Mathlib

/-!
Verification of the adaptive mind-map layout core of
`obsidian-mindmap-plugin` against its natural-language specification.

The TypeScript sources are embedded shallowly:

* numbers become `ℚ` (the code performs only field arithmetic, `floor`,
  `ceil`, `min`/`max` and comparisons on IEEE doubles, all of which are
  exact on the rational inputs considered here);
* strings become `List Char`;
* the DOM text-measurement surface of `TextMeasurer.measureTextAccurately`
  is abstracted as a width-measuring function parameter, with the source's
  deterministic fallback estimator (`charWidth = 0.62 × fontSize`) given as
  a concrete instance;
* the two memoisation caches of `TextMeasurer` become association lists
  keyed by the exact strings the source builds.

Definitions mirror `src/utils/coordinate-system.ts`,
`src/utils/TextMeasurer.ts` and `src/constants/mindmap-constants.ts`.
The overlap resolver `resolveOverlaps` of spec §4.4 has no source file in
the repository snapshot; it is modelled from the spec as marked below.
-/

namespace MindMap

/-! ## Coordinate converter (`src/utils/coordinate-system.ts`) -/

/-- `CoordinateConverter.toCanvasX`: layout left-edge maps directly to the
render horizontal coordinate, shifted by the offset. -/
def toCanvasX (layoutY offsetX : ℚ) : ℚ := layoutY + offsetX

/-- `CoordinateConverter.toCanvasY`: layout center to render top edge. -/
def toCanvasY (layoutX nodeHeight offsetY : ℚ) : ℚ :=
  layoutX + offsetY - nodeHeight / 2

/-- `CoordinateConverter.toLayoutX`: render top edge back to layout center,
the inverse of `toCanvasY`. -/
def toLayoutX (canvasY nodeHeight offsetY : ℚ) : ℚ :=
  canvasY - offsetY + nodeHeight / 2

/-- `CoordinateConverter.calculateActualGap`: signed vertical clearance
between the bottom edge of node 1 and the top edge of node 2. -/
def calculateActualGap (layoutX1 height1 layoutX2 height2 : ℚ) : ℚ :=
  (layoutX2 - height2 / 2) - (layoutX1 + height1 / 2)

/-- `CoordinateConverter.isOverlapping`: vertical-interval overlap test with
a safety gap, exactly as in the source:
`!(bottom1 + gap <= top2 || bottom2 + gap <= top1)`. -/
def isOverlapping (layoutX1 height1 layoutX2 height2 gap : ℚ) : Bool :=
  let top1 := layoutX1 - height1 / 2
  let bottom1 := layoutX1 + height1 / 2
  let top2 := layoutX2 - height2 / 2
  let bottom2 := layoutX2 + height2 / 2
  !(decide (bottom1 + gap ≤ top2) || decide (bottom2 + gap ≤ top1))

/-! ## Text measurer (`src/utils/TextMeasurer.ts`) -/

/-- Split a character list at every occurrence of `c`, in the style of the
JS `String.prototype.split` with a single-character separator: the result
is never empty, and splitting the empty string yields `[[]]`. -/
def splitOnChar (c : Char) : List Char → List (List Char)
  | [] => [[]]
  | x :: xs =>
    if x = c then [] :: splitOnChar c xs
    else
      match splitOnChar c xs with
      | [] => [[x]]
      | l :: ls => (x :: l) :: ls

/-- Join a list of lines with a separator, in the style of the JS
`Array.prototype.join`. -/
def joinWith (sep : List Char) : List (List Char) → List Char
  | [] => []
  | [l] => l
  | l :: l' :: ls => l ++ sep ++ joinWith sep (l' :: ls)

/-- One step of the greedy word-wrap loop of `TextMeasurer.wrapText`
(source lines 145–155): try to extend the current line with the next word;
on overflow, flush the (non-empty) current line and start a new one. -/
def wrapStep (maxChars : ℤ) (acc : List (List Char) × List Char)
    (word : List Char) : List (List Char) × List Char :=
  let lines := acc.1
  let currentLine := acc.2
  let testLine := if currentLine = [] then word else currentLine ++ ' ' :: word
  if (testLine.length : ℤ) ≤ maxChars then (lines, testLine)
  else (if currentLine = [] then lines else lines ++ [currentLine], word)

/-- The final flush after the greedy loop (source lines 157–159): append
the last current line if it is non-empty. -/
def flushLines (acc : List (List Char) × List Char) : List (List Char) :=
  if acc.2 = [] then acc.1 else acc.1 ++ [acc.2]

/-- A line obtainable by folding the greedy loop over the remaining words
`rem` starting from current line `cur`: either the current line extended
by some of the upcoming words, or a non-empty selection of upcoming words,
joined by single spaces in order. Used to characterise `wrapText`. -/
def ProducedFrom (rem : List (List Char)) (cur l : List Char) : Prop :=
  ∃ ws, ws.Sublist rem ∧
    ((cur ≠ [] ∧ l = joinWith [' '] (cur :: ws)) ∨
     (ws ≠ [] ∧ l = joinWith [' '] ws))

/-- `TextMeasurer.wrapText` (source lines 120–162): empty text becomes a
single empty line; with no width limit, manual line breaks are honored and
otherwise the text stays on one line; with a width limit, greedy word-wrap
against `floor(maxWidth / (0.62 × fontSize))` characters per line. -/
def wrapText (text : List Char) (maxWidth : Option ℚ) (fontSize : ℚ) :
    List (List Char) :=
  if text = [] then [[]]
  else
    match maxWidth with
    | none =>
      if '\n' ∈ text then splitOnChar '\n' text else [text]
    | some mw =>
      let charWidth := fontSize * (62 / 100)
      let maxChars : ℤ := ⌊mw / charWidth⌋
      if (text.length : ℤ) ≤ maxChars then [text]
      else
        let words := splitOnChar ' ' text
        let acc := words.foldl (wrapStep maxChars) ([], [])
        let lines := flushLines acc
        if lines = [] then [text.take maxChars.toNat] else lines

/-- Font weight values used by the measurer (`"bold"` / `"normal"`). -/
inductive FontWeight where
  | normal
  | bold
deriving DecidableEq

/-- Abstraction of the width reported by
`TextMeasurer.measureTextAccurately` for a text at a font size and weight:
either the hidden-DOM measurement surface or the fallback estimator. -/
abbrev Measure := List Char → ℚ → FontWeight → ℚ

/-- The deterministic fallback estimator in `measureTextAccurately`
(source lines 101–107): `width = text.length × (0.62 × fontSize)`. -/
def fallbackMeasure : Measure := fun text fontSize _ =>
  (text.length : ℚ) * (fontSize * (62 / 100))

/-- `TextMeasurer.measureTextSize` (source lines 172–197), parameterised by
the per-line width measurement: the widest measured line (at least 35)
ceiled, and `lineCount × 1.3 × fontSize` ceiled. -/
def measureTextSize (measure : Measure) (lines : List (List Char))
    (fontSize : ℚ) (fontWeight : FontWeight) : ℚ × ℚ :=
  if lines = [] then (40, fontSize * (13 / 10))
  else
    let lineHeight := fontSize * (13 / 10)
    let maxWidth :=
      lines.foldl (fun m l => max m (measure l fontSize fontWeight)) 0
    let height := (lines.length : ℚ) * lineHeight
    let width := max maxWidth 35
    (((⌈width⌉ : ℤ) : ℚ), ((⌈height⌉ : ℤ) : ℚ))

/-- `getFontSizeByDepth` from `src/constants/mindmap-constants.ts`,
composed with the `parseInt` applied in `getNodeDimensions`: the numeric
font size per depth (root 20px, level 1 18px, deeper 15px). -/
def getFontSizeByDepth (depth : ℕ) : ℕ :=
  match depth with
  | 0 => 20
  | 1 => 18
  | _ => 15

/-- The per-depth minimum node width set by `getNodeDimensions`
(source lines 228–249). -/
def minWidthByDepth (depth : ℕ) : ℚ :=
  if depth = 0 then 40 else if depth = 1 then 38 else 20

/-- The per-depth padding set by `getNodeDimensions`
(source lines 228–249). -/
def paddingByDepth (depth : ℕ) : ℚ :=
  if depth = 0 then 18 else if depth = 1 then 16 else 10

/-- The per-depth font weight set by `getNodeDimensions`
(source lines 228–249). -/
def fontWeightByDepth (depth : ℕ) : FontWeight :=
  if depth = 0 then .bold else if depth = 1 then .bold else .normal

/-- Test for the whitespace characters relevant to the node texts here. -/
def isWhitespace (c : Char) : Bool :=
  c = ' ' || c = '\t' || c = '\n' || c = '\r'

/-- Modelled from the spec: `cleanTextContent`, imported by
`TextMeasurer.ts` from `src/utils/mindmap-utils.ts`, a file absent from
the repository snapshot. Spec §4.1: "empty/whitespace text is replaced by
a single empty line, not an error" — the cleaning step trims surrounding
whitespace, so whitespace-only text becomes the empty string before it is
wrapped. -/
def cleanTextContent (text : List Char) : List Char :=
  ((text.dropWhile isWhitespace).reverse.dropWhile isWhitespace).reverse

/-- The `NodeDimensions` record of `TextMeasurer.ts`. -/
structure NodeDimensions where
  width : ℚ
  height : ℚ
  textX : ℚ
  textY : ℚ
  fontSize : ℕ
  fontWeight : FontWeight
  lines : List (List Char)
  padding : ℚ
  minWidth : ℚ
  maxWidth : Option ℚ
deriving DecidableEq

/-- The pure computation performed by `TextMeasurer.getNodeDimensions`
(source lines 209–282) on a cache miss, parameterised by the
text-measurement surface. The memoisation cache is modelled separately
below; entries are only ever written with the value this function computes
for their key, so the cached path returns the same value. All three depth
branches of the source set `maxWidth = null`. -/
def getNodeDimensions (measure : Measure) (depth : ℕ) (text : List Char) :
    NodeDimensions :=
  let cleanedText := cleanTextContent text
  let fontSize := getFontSizeByDepth depth
  let fontWeight := fontWeightByDepth depth
  let maxWidth : Option ℚ := none
  let minWidth := minWidthByDepth depth
  let padding := paddingByDepth depth
  let effectiveMaxWidth := maxWidth.map (fun w => w - padding * 2)
  let lines := wrapText cleanedText effectiveMaxWidth (fontSize : ℚ)
  let textSize := measureTextSize measure lines (fontSize : ℚ) fontWeight
  let safetyBuffer := max 8 (textSize.1 * (5 / 100))
  let width := max (textSize.1 + padding * 2 + safetyBuffer) minWidth
  let height := max (textSize.2 + padding * 2) ((fontSize : ℚ) * 2)
  { width := width
    height := height
    textX := width / 2
    textY := textSize.2 / 2 + padding / 2
    fontSize := fontSize
    fontWeight := fontWeight
    lines := lines
    padding := padding
    minWidth := minWidth
    maxWidth := maxWidth }

/-- A rational that is an integer (the embedded meaning of "the value is
an integer" for a JS number). -/
def IsIntQ (q : ℚ) : Prop := ∃ k : ℤ, (k : ℚ) = q

/-! ## The `TextMeasurer` caches -/

/-- The cache key built by `getNodeDimensions` (source line 211):
`` `${depth}-${text}-${text.length}` ``. -/
def nodeDimKey (depth : ℕ) (text : List Char) : List Char :=
  (Nat.toDigits 10 depth) ++ '-' :: text ++ '-' :: Nat.toDigits 10 text.length

/-- The cache key built by `measureTextAccurately` (source line 73):
`` `${text}-${fontSize}-${fontWeight}` ``; the suffix after the text is
kept abstract here as the digits of a numeric tag. -/
def textMeasKey (text : List Char) (fontSize : ℕ) (bold : Bool) :
    List Char :=
  text ++ '-' :: Nat.toDigits 10 fontSize ++
    '-' :: (if bold then ['b', 'o', 'l', 'd']
            else ['n', 'o', 'r', 'm', 'a', 'l'])

/-- `TextMeasurer.clearNodeDimensionsCacheForText` restricted to one cache
(source lines 292–298 and 301–307): delete every entry whose key
*contains* the given text (`key.includes(text)`), keep the rest. -/
def clearCacheForText {V : Type} (text : List Char)
    (cache : List (List Char × V)) : List (List Char × V) :=
  cache.filter (fun kv => !(decide (text <:+: kv.1)))

/-- The whole of `clearNodeDimensionsCacheForText` (source lines 291–308):
the scan-and-delete applied to the node-dimension cache and to the
text-measurement cache. -/
def clearNodeDimensionsCacheForText {V W : Type} (text : List Char)
    (caches : List (List Char × V) × List (List Char × W)) :
    List (List Char × V) × List (List Char × W) :=
  (clearCacheForText text caches.1, clearCacheForText text caches.2)

/-! ## Overlap resolver (spec §4.4) — modelled from the spec

`resolveOverlaps` has no source file in the repository snapshot (only the
detection predicate `isOverlapping` does); the resolver below is modelled
from spec §4.4. Nodes are identified by their tree path (the root is `[]`,
child `i` of `p` is `p ++ [i]`), so the ancestor/descendant relation is
path-prefixing; centers live in a separate assignment so that pushing a
whole subtree is a pointwise update. -/

/-- Modelled from the spec: a positioned node for overlap resolution, with
its stable tree path and its box height. -/
structure RNode where
  path : List ℕ
  height : ℚ
deriving DecidableEq

/-- A center assignment for every node path. -/
abbrev Centers := List ℕ → ℚ

/-- Modelled from the spec: ancestor/descendant (or same-node)
relationship — one path is a prefix of the other (§4.4 scope filter). -/
def relatedPaths (p q : List ℕ) : Bool :=
  p.isPrefixOf q || q.isPrefixOf p

/-- All ordered pairs of list elements, first component earlier, in the
list's (pre-)order. -/
def orderedPairs {α : Type} : List α → List (α × α)
  | [] => []
  | x :: xs => xs.map (fun y => (x, y)) ++ orderedPairs xs

/-- Modelled from the spec: the candidate pairs of §4.4 — all pairs of
distinct nodes that are not in an ancestor/descendant relationship, in
stable pre-order. -/
def candidatePairs (ns : List RNode) : List (RNode × RNode) :=
  (orderedPairs ns).filter (fun ab => !(relatedPaths ab.1.path ab.2.path))

/-- Modelled from the spec: push a node's whole subtree down by `delta`
(§4.4: "propagate the same delta to that node's entire subtree"). -/
def pushSubtree (c : Centers) (p : List ℕ) (delta : ℚ) : Centers :=
  fun q => if p.isPrefixOf q then c q + delta else c q

/-- One recorded adjustment of the audit trail (§4.4 contract:
`{node, previousCenter, newCenter}`). -/
structure Adjustment where
  path : List ℕ
  previousCenter : ℚ
  newCenter : ℚ
deriving DecidableEq

/-- Modelled from the spec: handling of one candidate pair within a
detection pass (§4.4). If the two nodes overlap under `minGap` — the
detection predicate is `isOverlapping` from
`src/utils/coordinate-system.ts` — the lower node (larger current center,
ties broken toward the node appearing later in pre-order) is pushed down,
with its subtree, by `minGap − gap`, and the adjustment is recorded. -/
def resolvePairStep (minGap : ℚ) (acc : Centers × List Adjustment)
    (ab : RNode × RNode) : Centers × List Adjustment :=
  let c := acc.1
  let a := ab.1
  let b := ab.2
  if isOverlapping (c a.path) a.height (c b.path) b.height minGap then
    let lower := if c b.path < c a.path then a else b
    let upper := if c b.path < c a.path then b else a
    let gap := calculateActualGap (c upper.path) upper.height
      (c lower.path) lower.height
    let delta := minGap - gap
    (pushSubtree c lower.path delta,
     acc.2 ++ [⟨lower.path, c lower.path, c lower.path + delta⟩])
  else acc

/-- Modelled from the spec: one full detection pass over all candidate
pairs (§4.4), returning the updated centers and the adjustments made. -/
def detectionPass (ns : List RNode) (minGap : ℚ) (c : Centers) :
    Centers × List Adjustment :=
  (candidatePairs ns).foldl (resolvePairStep minGap) (c, [])

/-- Modelled from the spec: `resolveOverlaps` (§4.4) — re-run detection
passes until a full pass produces zero adjustments (convergence) or the
iteration cap is hit, in which case the result is still returned but
flagged non-converged. Returns the final centers, the audit trail, and the
convergence flag. -/
def resolveOverlaps (ns : List RNode) (minGap : ℚ) :
    ℕ → Centers → Centers × List Adjustment × Bool
  | 0, c => (c, [], false)
  | cap + 1, c =>
    let pass := detectionPass ns minGap c
    if pass.2 = [] then (pass.1, [], true)
    else
      let rest := resolveOverlaps ns minGap cap pass.1
      (rest.1, pass.2 ++ rest.2.1, rest.2.2)

end MindMap

namespace MindMap

/-! ## Claims C2 and C3 -/

/-- **C2.** `isOverlapping` returns exactly
`NOT (bottom1 + gap ≤ top2 OR bottom2 + gap ≤ top1)` where
`top_i = center_i − height_i/2` and `bottom_i = center_i + height_i/2`,
for all rational inputs; in particular the exact-touch case
`isOverlapping 100 50 150 50 0` is `false`. -/
theorem C2_isOverlapping_spec :
    (∀ c1 h1 c2 h2 g : ℚ,
      isOverlapping c1 h1 c2 h2 g = true ↔
        ¬((c1 + h1 / 2) + g ≤ (c2 - h2 / 2) ∨
          (c2 + h2 / 2) + g ≤ (c1 - h1 / 2))) ∧
    isOverlapping 100 50 150 50 0 = false := by
  constructor
  · intro c1 h1 c2 h2 g
    simp [isOverlapping, not_or]
  · simp only [isOverlapping]
    norm_num

/-- **C3.** The center→top-edge conversion and its inverse compose to the
identity: `toLayoutX (toCanvasY c h o) h o = c` for all rational inputs. -/
theorem C3_roundtrip (c h o : ℚ) :
    toLayoutX (toCanvasY c h o) h o = c := by
  unfold toLayoutX toCanvasY
  ring

/-! ## Claim C4 -/

/-- **C4.** For every measurement surface, depth and text, the node box
never degenerates: `width ≥ minWidth(depth)` and
`height ≥ 2.0 × fontSize(depth)`. -/
theorem C4_dimension_floors (measure : Measure) (depth : ℕ)
    (text : List Char) :
    minWidthByDepth depth ≤ (getNodeDimensions measure depth text).width ∧
    (getFontSizeByDepth depth : ℚ) * 2 ≤
      (getNodeDimensions measure depth text).height := by
  constructor
  · exact le_max_right _ _
  · exact le_max_right _ _

/-! ## Helper lemmas about `splitOnChar` and `joinWith` -/

theorem splitOnChar_ne_nil (c : Char) (s : List Char) :
    splitOnChar c s ≠ [] := by
  induction s with
  | nil => simp [splitOnChar]
  | cons x xs ih =>
    unfold splitOnChar
    split
    · simp
    · split <;> simp

theorem joinWith_cons_cons (sep : List Char) (x : Char) (l : List Char)
    (ls : List (List Char)) :
    joinWith sep ((x :: l) :: ls) = x :: joinWith sep (l :: ls) := by
  cases ls with
  | nil => simp [joinWith]
  | cons y ys => simp [joinWith]

theorem joinWith_splitOnChar (c : Char) (s : List Char) :
    joinWith [c] (splitOnChar c s) = s := by
  induction s with
  | nil => simp [splitOnChar, joinWith]
  | cons x xs ih =>
    unfold splitOnChar
    by_cases hx : x = c
    · simp only [if_pos hx]
      obtain ⟨r, rs, hr⟩ := List.exists_cons_of_ne_nil (splitOnChar_ne_nil c xs)
      rw [hr] at ih ⊢
      simpa [joinWith, hx] using ih
    · simp only [if_neg hx]
      obtain ⟨r, rs, hr⟩ := List.exists_cons_of_ne_nil (splitOnChar_ne_nil c xs)
      rw [hr] at ih ⊢
      rw [joinWith_cons_cons]
      exact congrArg (x :: ·) ih

theorem splitOnChar_of_not_mem (c : Char) (s : List Char) (h : c ∉ s) :
    splitOnChar c s = [s] := by
  induction s with
  | nil => simp [splitOnChar]
  | cons x xs ih =>
    have hx : x ≠ c := fun hxc => h (hxc ▸ List.mem_cons_self x xs)
    have hxs : c ∉ xs := fun hm => h (List.mem_cons_of_mem x hm)
    unfold splitOnChar
    rw [if_neg hx, ih hxs]

/-! ## Claims C6 and C9 -/

/-- **C6.** Empty or whitespace-only text is replaced by a single empty
line: the `lines` of the computed dimensions are exactly `[""]` (and the
computation is a total function, so no input raises). The cleaning step is
modelled from the spec (see `cleanTextContent`). -/
theorem C6_whitespace_yields_single_empty_line (measure : Measure)
    (depth : ℕ) (text : List Char)
    (hws : ∀ c ∈ text, isWhitespace c = true) :
    (getNodeDimensions measure depth text).lines = [[]] := by
  have h1 : text.dropWhile isWhitespace = [] :=
    List.dropWhile_eq_nil_iff.mpr hws
  have hclean : cleanTextContent text = [] := by
    unfold cleanTextContent
    rw [h1]
    simp
  simp [getNodeDimensions, hclean, wrapText]

/-- Witness for C6 at the one-space text. -/
theorem C6_whitespace_yields_single_empty_line_witness :
    (∀ c ∈ [' '], isWhitespace c = true) ∧
    (getNodeDimensions fallbackMeasure 0 [' ']).lines = [[]] :=
  ⟨by decide,
   C6_whitespace_yields_single_empty_line fallbackMeasure 0 [' '] (by decide)⟩

/-- **C9.** With no maximum width, a non-empty text is returned as its
segments split on `'\n'` (which is `[text]` when it has no line break),
and joining the returned lines with `'\n'` restores the text. -/
theorem C9_no_max_width_honors_line_breaks (text : List Char) (fs : ℚ)
    (h : text ≠ []) :
    wrapText text none fs = splitOnChar '\n' text ∧
    ('\n' ∉ text → wrapText text none fs = [text]) ∧
    joinWith ['\n'] (wrapText text none fs) = text := by
  unfold wrapText
  rw [if_neg h]
  by_cases hc : '\n' ∈ text
  · rw [if_pos hc]
    exact ⟨rfl, fun hno => absurd hc hno, joinWith_splitOnChar '\n' text⟩
  · rw [if_neg hc, splitOnChar_of_not_mem '\n' text hc]
    exact ⟨rfl, fun _ => rfl, by simp [joinWith]⟩

/-- Witness for C9 at the text `"a\nb"`. -/
theorem C9_no_max_width_honors_line_breaks_witness :
    (['a', '\n', 'b'] : List Char) ≠ [] ∧
    (wrapText ['a', '\n', 'b'] none 0 = splitOnChar '\n' ['a', '\n', 'b'] ∧
     ('\n' ∉ (['a', '\n', 'b'] : List Char) →
        wrapText ['a', '\n', 'b'] none 0 = [['a', '\n', 'b']]) ∧
     joinWith ['\n'] (wrapText ['a', '\n', 'b'] none 0) = ['a', '\n', 'b']) :=
  ⟨by decide, C9_no_max_width_honors_line_breaks ['a', '\n', 'b'] 0 (by decide)⟩

/-! ## Claims C5 and C10: the invalidation scan -/

/-- **C5, counterexample.** Invalidation is *not* point invalidation by
exact text match: with `t = "ab"` and `u = "a"` both cached at depth 0,
invalidating `u` also deletes the entry for the distinct text `t`,
because the key `"0-ab-2"` contains `"a"` as a substring. -/
theorem C5_counterexample :
    ¬ ((nodeDimKey 0 ['a', 'b'], (0 : ℕ)) ∈
        clearCacheForText ['a']
          [(nodeDimKey 0 ['a', 'b'], (0 : ℕ)), (nodeDimKey 0 ['a'], 1)]) := by
  decide

/-- **C5, amended.** `clearNodeDimensionsCacheForText` performs substring
invalidation: it removes exactly the entries whose key contains the given
text as a substring — in particular every entry keyed for the text itself —
and an entry for a distinct text survives if and only if its key does not
contain the given text. -/
theorem C5_amended_substring_invalidation {V : Type} (u : List Char)
    (cache : List (List Char × V)) :
    (∀ kv : List Char × V,
      kv ∈ clearCacheForText u cache ↔ kv ∈ cache ∧ ¬ u <:+: kv.1) ∧
    (∀ (d : ℕ) (v : V), (nodeDimKey d u, v) ∉ clearCacheForText u cache) := by
  have hmem : ∀ kv : List Char × V,
      kv ∈ clearCacheForText u cache ↔ kv ∈ cache ∧ ¬ u <:+: kv.1 := by
    intro kv
    simp [clearCacheForText, List.mem_filter]
  refine ⟨hmem, fun d v hin => ?_⟩
  have h2 := (hmem _).mp hin
  exact h2.2 ⟨Nat.toDigits 10 d ++ ['-'], '-' :: Nat.toDigits 10 u.length,
    by simp [nodeDimKey]⟩

/-- **C10.** Invalidating the empty string flushes everything: every key
contains `""` as a substring, so both the node-dimension cache and the
text-measurement cache are emptied, whatever they held. -/
theorem C10_clear_empty_text_flushes_both_caches {V W : Type}
    (caches : List (List Char × V) × List (List Char × W)) :
    clearNodeDimensionsCacheForText [] caches = ([], []) := by
  have hnil : ∀ (k : List Char), ([] : List Char) <:+: k :=
    fun k => ⟨[], k, by simp⟩
  unfold clearNodeDimensionsCacheForText clearCacheForText
  simp only [Prod.mk.injEq, List.filter_eq_nil_iff]
  constructor <;>
  · intro kv _
    simp [hnil kv.1]

/-! ## Claim C7: integrality of the computed dimensions -/

theorem IsIntQ_intCast (k : ℤ) : IsIntQ (k : ℚ) := ⟨k, rfl⟩

theorem IsIntQ_add {a b : ℚ} (ha : IsIntQ a) (hb : IsIntQ b) :
    IsIntQ (a + b) := by
  obtain ⟨j, rfl⟩ := ha
  obtain ⟨k, rfl⟩ := hb
  exact ⟨j + k, by push_cast; ring⟩

theorem IsIntQ_mul {a b : ℚ} (ha : IsIntQ a) (hb : IsIntQ b) :
    IsIntQ (a * b) := by
  obtain ⟨j, rfl⟩ := ha
  obtain ⟨k, rfl⟩ := hb
  exact ⟨j * k, by push_cast; ring⟩

theorem IsIntQ_max {a b : ℚ} (ha : IsIntQ a) (hb : IsIntQ b) :
    IsIntQ (max a b) := by
  rcases max_choice a b with h | h <;> rw [h] <;> assumption

theorem IsIntQ_paddingByDepth (depth : ℕ) : IsIntQ (paddingByDepth depth) := by
  unfold paddingByDepth
  split
  · exact ⟨18, by norm_num⟩
  · split
    · exact ⟨16, by norm_num⟩
    · exact ⟨10, by norm_num⟩

theorem wrapText_ne_nil (text : List Char) (mw : Option ℚ) (fs : ℚ) :
    wrapText text mw fs ≠ [] := by
  unfold wrapText
  split
  · simp
  · split
    · split
      · exact splitOnChar_ne_nil '\n' text
      · simp
    · dsimp only
      split
      · simp
      · split <;> simp_all

theorem measureTextSize_isIntQ (measure : Measure) (L : List (List Char))
    (fs : ℚ) (fw : FontWeight) (hL : L ≠ []) :
    IsIntQ (measureTextSize measure L fs fw).1 ∧
    IsIntQ (measureTextSize measure L fs fw).2 := by
  unfold measureTextSize
  rw [if_neg hL]
  exact ⟨⟨_, rfl⟩, ⟨_, rfl⟩⟩

/-- **C7, counterexample.** The final width returned by
`getNodeDimensions` is *not* always an integer: at depth 2 with 18
characters of text on the fallback estimator path, the measured line width
ceils to 168, the safety buffer is `max(8, 0.05 × 168) = 8.4`, and the
final width is `168 + 2×10 + 8.4 = 196.4`. -/
theorem C7_counterexample :
    ¬ IsIntQ
      (getNodeDimensions fallbackMeasure 2 (List.replicate 18 'a')).width := by
  have hclean : cleanTextContent (List.replicate 18 'a') =
      List.replicate 18 'a' := by decide
  have hwrap : ∀ fs : ℚ, wrapText (List.replicate 18 'a') none fs =
      [List.replicate 18 'a'] := by
    intro fs
    unfold wrapText
    rw [if_neg (by decide), if_neg (by decide)]
  have hceil1 : (⌈(837 / 5 : ℚ)⌉ : ℤ) = 168 := by
    rw [Int.ceil_eq_iff] <;> norm_num
  have hceil2 : (⌈(39 / 2 : ℚ)⌉ : ℤ) = 20 := by
    rw [Int.ceil_eq_iff] <;> norm_num
  have hms : measureTextSize fallbackMeasure [List.replicate 18 'a']
      ((getFontSizeByDepth 2 : ℕ) : ℚ) (fontWeightByDepth 2) = (168, 20) := by
    unfold measureTextSize fallbackMeasure
    rw [if_neg (by simp)]
    simp only [List.foldl_cons, List.foldl_nil, List.length_replicate,
      List.length_cons, List.length_nil]
    have h1 : max (0 : ℚ)
        ((18 : ℕ) * (((getFontSizeByDepth 2 : ℕ) : ℚ) * (62 / 100))) =
        837 / 5 := by
      rw [max_eq_right] <;> norm_num [getFontSizeByDepth]
    rw [h1]
    have h2 : max (837 / 5 : ℚ) 35 = 837 / 5 := by
      rw [max_eq_left] <;> norm_num
    rw [h2, hceil1]
    have h3 : ((1 : ℕ) : ℚ) * (((getFontSizeByDepth 2 : ℕ) : ℚ) * (13 / 10)) =
        39 / 2 := by
      norm_num [getFontSizeByDepth]
    rw [h3, hceil2]
    norm_num
  have hwidth : (getNodeDimensions fallbackMeasure 2
      (List.replicate 18 'a')).width = 982 / 5 := by
    simp only [getNodeDimensions, Option.map_none', hclean, hwrap, hms]
    have h4 : max (8 : ℚ) ((168 : ℚ) * (5 / 100)) = 42 / 5 := by
      rw [max_eq_right] <;> norm_num
    have h5 : (168 : ℚ) + paddingByDepth 2 * 2 + 42 / 5 = 982 / 5 := by
      norm_num [paddingByDepth]
    rw [h4, h5, max_eq_left (by norm_num [minWidthByDepth])]
  rw [hwidth]
  rintro ⟨k, hk⟩
  have h5k : (5 : ℚ) * k = 982 := by
    rw [hk]
    norm_num
  have h5k' : (5 : ℤ) * k = 982 := by exact_mod_cast h5k
  omega

/-- **C7, amended.** Both components returned by `measureTextSize` are
ceiled to integers whenever the line list is non-empty (as it always is
inside `getNodeDimensions`), and the final height of `getNodeDimensions`
is an integer; the final *width*, however, may be fractional because of
the `max(8, 0.05 × textWidth)` safety buffer (see the counterexample). -/
theorem C7_amended_integral_parts (measure : Measure) (depth : ℕ)
    (text : List Char) (L : List (List Char)) (fs : ℚ)
    (fw : FontWeight) (hL : L ≠ []) :
    IsIntQ (measureTextSize measure L fs fw).1 ∧
    IsIntQ (measureTextSize measure L fs fw).2 ∧
    IsIntQ (getNodeDimensions measure depth text).height := by
  refine ⟨(measureTextSize_isIntQ measure L fs fw hL).1,
    (measureTextSize_isIntQ measure L fs fw hL).2, ?_⟩
  simp only [getNodeDimensions, Option.map_none']
  apply IsIntQ_max
  · apply IsIntQ_add
    · exact (measureTextSize_isIntQ measure _ _ _
        (wrapText_ne_nil _ _ _)).2
    · exact IsIntQ_mul (IsIntQ_paddingByDepth depth) ⟨2, by norm_num⟩
  · exact IsIntQ_mul ⟨(getFontSizeByDepth depth : ℤ), by push_cast; ring⟩
      ⟨2, by norm_num⟩

/-! ## Claim C8: the greedy wrap never splits a word -/

theorem wrapStep_nil_cur (maxChars : ℤ) (lines : List (List Char))
    (w : List Char) : wrapStep maxChars (lines, []) w = (lines, w) := by
  simp [wrapStep]

theorem wrapStep_fit (maxChars : ℤ) (lines : List (List Char))
    (cur w : List Char) (hcur : cur ≠ [])
    (hfit : ((cur ++ ' ' :: w).length : ℤ) ≤ maxChars) :
    wrapStep maxChars (lines, cur) w = (lines, cur ++ ' ' :: w) := by
  unfold wrapStep
  dsimp only
  simp only [if_neg hcur]
  rw [if_pos hfit]

theorem wrapStep_overflow (maxChars : ℤ) (lines : List (List Char))
    (cur w : List Char) (hcur : cur ≠ [])
    (hfit : ¬((cur ++ ' ' :: w).length : ℤ) ≤ maxChars) :
    wrapStep maxChars (lines, cur) w = (lines ++ [cur], w) := by
  unfold wrapStep
  dsimp only
  simp only [if_neg hcur]
  rw [if_neg hfit]

theorem joinWith_glue (a b : List Char) (ls : List (List Char)) :
    joinWith [' '] ((a ++ ' ' :: b) :: ls) = joinWith [' '] (a :: b :: ls) := by
  cases ls with
  | nil => simp [joinWith]
  | cons y ys => simp [joinWith, List.append_assoc]

theorem wrapFold_lines_good (maxChars : ℤ) (rem : List (List Char)) :
    ∀ (lines : List (List Char)) (cur l : List Char),
      l ∈ flushLines (rem.foldl (wrapStep maxChars) (lines, cur)) →
      l ∈ lines ∨ ProducedFrom rem cur l := by
  induction rem with
  | nil =>
    intro lines cur l hmem
    simp only [List.foldl_nil, flushLines] at hmem
    by_cases hcur : cur = []
    · rw [if_pos hcur] at hmem
      exact Or.inl hmem
    · rw [if_neg hcur] at hmem
      rcases List.mem_append.mp hmem with h | h
      · exact Or.inl h
      · rw [List.mem_singleton] at h
        subst h
        exact Or.inr ⟨[], List.nil_sublist _, Or.inl ⟨hcur, by simp [joinWith]⟩⟩
  | cons w rest ih =>
    intro lines cur l hmem
    rw [List.foldl_cons] at hmem
    by_cases hcur : cur = []
    · subst hcur
      rw [wrapStep_nil_cur] at hmem
      rcases ih lines w l hmem with h | ⟨ws, hsub, hcase⟩
      · exact Or.inl h
      · rcases hcase with ⟨_, hl⟩ | ⟨hne, hl⟩
        · exact Or.inr ⟨w :: ws, hsub.cons₂ w,
            Or.inr ⟨List.cons_ne_nil _ _, hl⟩⟩
        · exact Or.inr ⟨ws, hsub.cons w, Or.inr ⟨hne, hl⟩⟩
    · by_cases hfit : ((cur ++ ' ' :: w).length : ℤ) ≤ maxChars
      · rw [wrapStep_fit maxChars lines cur w hcur hfit] at hmem
        rcases ih lines (cur ++ ' ' :: w) l hmem with h | ⟨ws, hsub, hcase⟩
        · exact Or.inl h
        · rcases hcase with ⟨_, hl⟩ | ⟨hne, hl⟩
          · rw [joinWith_glue] at hl
            exact Or.inr ⟨w :: ws, hsub.cons₂ w, Or.inl ⟨hcur, hl⟩⟩
          · exact Or.inr ⟨ws, hsub.cons w, Or.inr ⟨hne, hl⟩⟩
      · rw [wrapStep_overflow maxChars lines cur w hcur hfit] at hmem
        rcases ih (lines ++ [cur]) w l hmem with h | ⟨ws, hsub, hcase⟩
        · rcases List.mem_append.mp h with h' | h'
          · exact Or.inl h'
          · rw [List.mem_singleton] at h'
            subst h'
            exact Or.inr ⟨[], List.nil_sublist _,
              Or.inl ⟨hcur, by simp [joinWith]⟩⟩
        · rcases hcase with ⟨_, hl⟩ | ⟨hne, hl⟩
          · exact Or.inr ⟨w :: ws, hsub.cons₂ w,
              Or.inr ⟨List.cons_ne_nil _ _, hl⟩⟩
          · exact Or.inr ⟨ws, hsub.cons w, Or.inr ⟨hne, hl⟩⟩

theorem wrapFold_nil_all_empty (maxChars : ℤ) (rem : List (List Char)) :
    ∀ (lines : List (List Char)) (cur : List Char),
      (rem.foldl (wrapStep maxChars) (lines, cur)).1 = [] →
      (rem.foldl (wrapStep maxChars) (lines, cur)).2 = [] →
      lines = [] ∧ cur = [] ∧ ∀ w ∈ rem, w = [] := by
  induction rem with
  | nil =>
    intro lines cur h1 h2
    exact ⟨h1, h2, by simp⟩
  | cons w rest ih =>
    intro lines cur h1 h2
    rw [List.foldl_cons] at h1 h2
    by_cases hcur : cur = []
    · subst hcur
      rw [wrapStep_nil_cur] at h1 h2
      obtain ⟨hl, hw, hrest⟩ := ih lines w h1 h2
      refine ⟨hl, rfl, ?_⟩
      intro x hx
      rcases List.mem_cons.mp hx with rfl | hx'
      · exact hw
      · exact hrest x hx'
    · by_cases hfit : ((cur ++ ' ' :: w).length : ℤ) ≤ maxChars
      · rw [wrapStep_fit maxChars lines cur w hcur hfit] at h1 h2
        obtain ⟨_, habs, _⟩ := ih lines (cur ++ ' ' :: w) h1 h2
        exact absurd habs (by simp [hcur])
      · rw [wrapStep_overflow maxChars lines cur w hcur hfit] at h1 h2
        obtain ⟨habs, _, _⟩ := ih (lines ++ [cur]) w h1 h2
        exact absurd habs (by simp)

theorem splitOnChar_all_nil (c : Char) (s : List Char)
    (h : ∀ w ∈ splitOnChar c s, w = []) : ∀ x ∈ s, x = c := by
  induction s with
  | nil => simp
  | cons x xs ih =>
    intro y hy
    unfold splitOnChar at h
    by_cases hx : x = c
    · rw [if_pos hx] at h
      rcases List.mem_cons.mp hy with rfl | hy'
      · exact hx
      · exact ih (fun w hw => h w (List.mem_cons_of_mem _ hw)) y hy'
    · rw [if_neg hx] at h
      obtain ⟨r, rs, hr⟩ := List.exists_cons_of_ne_nil (splitOnChar_ne_nil c xs)
      rw [hr] at h
      have hxr := h (x :: r) (List.mem_cons_self _ _)
      simp at hxr

theorem splitOnChar_replicate (c : Char) (n : ℕ) :
    splitOnChar c (List.replicate n c) = List.replicate (n + 1) [] := by
  induction n with
  | zero => simp [splitOnChar]
  | succ n ih => simp [List.replicate_succ, splitOnChar, ih]

theorem joinWith_replicate_nil (c : Char) (n : ℕ) :
    joinWith [c] (List.replicate (n + 1) []) = List.replicate n c := by
  induction n with
  | zero => simp [joinWith]
  | succ n ih =>
    have h2 : List.replicate (n + 1) ([] : List Char) =
        [] :: List.replicate n [] := List.replicate_succ _ _
    calc joinWith [c] (List.replicate (n + 1 + 1) ([] : List Char))
        = joinWith [c] ([] :: [] :: List.replicate n []) := by
          rw [List.replicate_succ, h2]
      _ = [] ++ [c] ++ joinWith [c] ([] :: List.replicate n []) := rfl
      _ = c :: List.replicate n c := by rw [← h2, ih]; simp
      _ = List.replicate (n + 1) c := (List.replicate_succ c n).symm

/-- **C8.** With a configured maximum width, every line produced by
`wrapText` is a concatenation of whole space-separated words of the input
(a subsequence of `text.split(' ')`, in order) joined by single spaces:
no word is ever split across two lines. -/
theorem C8_wrap_never_splits_words (text : List Char) (mw fs : ℚ)
    (l : List Char) (hl : l ∈ wrapText text (some mw) fs) :
    ∃ ws, ws ≠ [] ∧ ws.Sublist (splitOnChar ' ' text) ∧
      l = joinWith [' '] ws := by
  unfold wrapText at hl
  by_cases ht : text = []
  · rw [if_pos ht] at hl
    rw [List.mem_singleton] at hl
    subst hl
    subst ht
    exact ⟨[[]], by simp, by simp [splitOnChar], by simp [joinWith]⟩
  rw [if_neg ht] at hl
  dsimp only at hl
  by_cases hlen : (text.length : ℤ) ≤ ⌊mw / (fs * (62 / 100))⌋
  · rw [if_pos hlen, List.mem_singleton] at hl
    subst hl
    exact ⟨splitOnChar ' ' l, splitOnChar_ne_nil _ _, List.Sublist.refl _,
      (joinWith_splitOnChar ' ' l).symm⟩
  rw [if_neg hlen] at hl
  by_cases hflush : flushLines ((splitOnChar ' ' text).foldl
      (wrapStep ⌊mw / (fs * (62 / 100))⌋) ([], [])) = []
  · rw [if_pos hflush, List.mem_singleton] at hl
    subst hl
    have hacc : ((splitOnChar ' ' text).foldl
          (wrapStep ⌊mw / (fs * (62 / 100))⌋) ([], [])).1 = [] ∧
        ((splitOnChar ' ' text).foldl
          (wrapStep ⌊mw / (fs * (62 / 100))⌋) ([], [])).2 = [] := by
      unfold flushLines at hflush
      by_cases h2 : ((splitOnChar ' ' text).foldl
          (wrapStep ⌊mw / (fs * (62 / 100))⌋) ([], [])).2 = []
      · rw [if_pos h2] at hflush
        exact ⟨hflush, h2⟩
      · rw [if_neg h2] at hflush
        exact absurd hflush (by simp)
    obtain ⟨_, _, hall⟩ := wrapFold_nil_all_empty ⌊mw / (fs * (62 / 100))⌋
      (splitOnChar ' ' text) [] [] hacc.1 hacc.2
    have hchars : ∀ x ∈ text, x = ' ' := splitOnChar_all_nil ' ' text hall
    have hrep : text = List.replicate text.length ' ' :=
      List.eq_replicate_of_mem hchars
    set k := (⌊mw / (fs * (62 / 100))⌋).toNat with hk
    refine ⟨List.replicate (min k text.length + 1) [], by simp, ?_, ?_⟩
    · rw [hrep, splitOnChar_replicate]
      exact (List.replicate_sublist_replicate _).mpr
        (by omega)
    · rw [joinWith_replicate_nil]
      rw [hrep, List.take_replicate]
      simp
  · rw [if_neg hflush] at hl
    rcases wrapFold_lines_good ⌊mw / (fs * (62 / 100))⌋ (splitOnChar ' ' text)
        [] [] l hl with h | ⟨ws, hsub, hcase⟩
    · exact absurd h (List.not_mem_nil l)
    · rcases hcase with ⟨habs, _⟩ | ⟨hne, hjoin⟩
      · exact absurd rfl habs
      · exact ⟨ws, hne, hsub, hjoin⟩

/-- Witness for C8: wrapping `"a b"` with zero width produces the whole
word `"a"` as its first line. -/
theorem C8_wrap_never_splits_words_witness :
    (['a'] ∈ wrapText ['a', ' ', 'b'] (some 0) 0) ∧
    ∃ ws, ws ≠ [] ∧ ws.Sublist (splitOnChar ' ' ['a', ' ', 'b']) ∧
      ['a'] = joinWith [' '] ws := by
  have hm : ['a'] ∈ wrapText ['a', ' ', 'b'] (some 0) 0 := by
    have hmc : ⌊(0 : ℚ) / ((0 : ℚ) * (62 / 100))⌋ = (0 : ℤ) := by simp
    unfold wrapText
    rw [if_neg (by decide)]
    dsimp only
    rw [hmc]
    decide
  exact ⟨hm, C8_wrap_never_splits_words ['a', ' ', 'b'] 0 0 ['a'] hm⟩

/-- Witness for the amended C7 at a concrete one-line list. -/
theorem C7_amended_integral_parts_witness :
    ([['a']] : List (List Char)) ≠ [] ∧
    (IsIntQ (measureTextSize fallbackMeasure [['a']] 15 .normal).1 ∧
     IsIntQ (measureTextSize fallbackMeasure [['a']] 15 .normal).2 ∧
     IsIntQ (getNodeDimensions fallbackMeasure 2 ['a']).height) :=
  ⟨by decide,
   C7_amended_integral_parts fallbackMeasure 2 ['a'] [['a']] 15 .normal
     (by decide)⟩

/-! ## Claim C1: no-overlap postcondition of the resolver -/

theorem resolvePairStep_no_overlap (minGap : ℚ) (c : Centers)
    (adjs : List Adjustment) (ab : RNode × RNode)
    (h : isOverlapping (c ab.1.path) ab.1.height (c ab.2.path) ab.2.height
      minGap = false) :
    resolvePairStep minGap (c, adjs) ab = (c, adjs) := by
  simp [resolvePairStep, h]

theorem resolvePairStep_cases (minGap : ℚ) (c : Centers)
    (adjs : List Adjustment) (ab : RNode × RNode) :
    resolvePairStep minGap (c, adjs) ab = (c, adjs) ∨
    ∃ c' x, resolvePairStep minGap (c, adjs) ab = (c', adjs ++ [x]) := by
  unfold resolvePairStep
  dsimp only
  split
  · right
    exact ⟨_, _, rfl⟩
  · left
    rfl

theorem resolveFold_trail_mono (minGap : ℚ) (pairs : List (RNode × RNode)) :
    ∀ (c : Centers) (adjs : List Adjustment),
      ∃ ext, (pairs.foldl (resolvePairStep minGap) (c, adjs)).2 =
        adjs ++ ext := by
  induction pairs with
  | nil =>
    intro c adjs
    exact ⟨[], by simp⟩
  | cons ab rest ih =>
    intro c adjs
    rw [List.foldl_cons]
    rcases resolvePairStep_cases minGap c adjs ab with heq | ⟨c', x, heq⟩
    · rw [heq]
      exact ih c adjs
    · rw [heq]
      obtain ⟨ext, hext⟩ := ih c' (adjs ++ [x])
      exact ⟨x :: ext, by rw [hext]; simp⟩

theorem resolveFold_no_new_trail (minGap : ℚ)
    (pairs : List (RNode × RNode)) :
    ∀ (c : Centers) (adjs : List Adjustment),
      (pairs.foldl (resolvePairStep minGap) (c, adjs)).2 = adjs →
      (pairs.foldl (resolvePairStep minGap) (c, adjs)).1 = c ∧
      ∀ ab ∈ pairs,
        isOverlapping (c ab.1.path) ab.1.height (c ab.2.path) ab.2.height
          minGap = false := by
  induction pairs with
  | nil =>
    intro c adjs _
    exact ⟨rfl, by simp⟩
  | cons ab rest ih =>
    intro c adjs hno
    rw [List.foldl_cons] at hno ⊢
    by_cases hov : isOverlapping (c ab.1.path) ab.1.height (c ab.2.path)
        ab.2.height minGap = true
    · exfalso
      have hstep : ∃ c' x,
          resolvePairStep minGap (c, adjs) ab = (c', adjs ++ [x]) := by
        unfold resolvePairStep
        dsimp only
        rw [if_pos hov]
        exact ⟨_, _, rfl⟩
      obtain ⟨c', x, heq⟩ := hstep
      rw [heq] at hno
      obtain ⟨ext, hext⟩ := resolveFold_trail_mono minGap rest c' (adjs ++ [x])
      rw [hext] at hno
      have hlen := congrArg List.length hno
      simp [List.length_append] at hlen
    · have hov' : isOverlapping (c ab.1.path) ab.1.height (c ab.2.path)
          ab.2.height minGap = false := by
        simpa using hov
      rw [resolvePairStep_no_overlap minGap c adjs ab hov'] at hno ⊢
      obtain ⟨h1, h2⟩ := ih c adjs hno
      refine ⟨h1, ?_⟩
      intro p hp
      rcases List.mem_cons.mp hp with rfl | hp'
      · exact hov'
      · exact h2 p hp'

theorem detectionPass_no_adjust (ns : List RNode) (minGap : ℚ) (c : Centers)
    (h : (detectionPass ns minGap c).2 = []) :
    (detectionPass ns minGap c).1 = c ∧
    ∀ ab ∈ candidatePairs ns,
      isOverlapping (c ab.1.path) ab.1.height (c ab.2.path) ab.2.height
        minGap = false :=
  resolveFold_no_new_trail minGap (candidatePairs ns) c [] h

theorem orderedPairs_mem {α : Type} (l : List α) (a b : α)
    (ha : a ∈ l) (hb : b ∈ l) :
    (a, b) ∈ orderedPairs l ∨ (b, a) ∈ orderedPairs l ∨ a = b := by
  induction l with
  | nil => cases ha
  | cons x xs ih =>
    rcases List.mem_cons.mp ha with rfl | ha'
    · rcases List.mem_cons.mp hb with rfl | hb'
      · right; right; rfl
      · left
        unfold orderedPairs
        exact List.mem_append.mpr (Or.inl (List.mem_map.mpr ⟨b, hb', rfl⟩))
    · rcases List.mem_cons.mp hb with rfl | hb'
      · right; left
        unfold orderedPairs
        exact List.mem_append.mpr (Or.inl (List.mem_map.mpr ⟨a, ha', rfl⟩))
      · rcases ih ha' hb' with h | h | h
        · left
          unfold orderedPairs
          exact List.mem_append.mpr (Or.inr h)
        · right; left
          unfold orderedPairs
          exact List.mem_append.mpr (Or.inr h)
        · right; right; exact h

theorem isPrefixOf_self (p : List ℕ) : p.isPrefixOf p = true := by
  induction p with
  | nil => rfl
  | cons x xs ih => simp [List.isPrefixOf, ih]

theorem relatedPaths_self (p : List ℕ) : relatedPaths p p = true := by
  simp [relatedPaths, isPrefixOf_self]

theorem relatedPaths_symm (p q : List ℕ) :
    relatedPaths p q = relatedPaths q p := by
  simp [relatedPaths, Bool.or_comm]

theorem isOverlapping_symm (c1 h1 c2 h2 g : ℚ) :
    isOverlapping c1 h1 c2 h2 g = isOverlapping c2 h2 c1 h1 g := by
  simp [isOverlapping, Bool.or_comm]

theorem mem_candidatePairs (ns : List RNode) (a b : RNode)
    (ha : a ∈ ns) (hb : b ∈ ns)
    (hrel : relatedPaths a.path b.path = false) :
    (a, b) ∈ candidatePairs ns ∨ (b, a) ∈ candidatePairs ns := by
  have hab : a ≠ b := by
    intro h
    subst h
    rw [relatedPaths_self] at hrel
    cases hrel
  rcases orderedPairs_mem ns a b ha hb with h | h | h
  · left
    exact List.mem_filter.mpr ⟨h, by simp [hrel]⟩
  · right
    refine List.mem_filter.mpr ⟨h, ?_⟩
    dsimp only
    rw [relatedPaths_symm, hrel]
    rfl
  · exact absurd h hab

/-- **C1.** (spec-modelled, see `resolveOverlaps`.) If `resolveOverlaps`
converges — its final detection pass made zero adjustments — then for
every pair of nodes of the tree that are not in an ancestor/descendant
relationship, the `isOverlapping` predicate at the resulting centers with
the configured minimum gap returns `false`. -/
theorem C1_no_overlap_after_convergence (ns : List RNode) (minGap : ℚ)
    (cap : ℕ) :
    ∀ (c0 : Centers),
      (resolveOverlaps ns minGap cap c0).2.2 = true →
      ∀ a ∈ ns, ∀ b ∈ ns, relatedPaths a.path b.path = false →
        isOverlapping ((resolveOverlaps ns minGap cap c0).1 a.path) a.height
          ((resolveOverlaps ns minGap cap c0).1 b.path) b.height minGap
          = false := by
  induction cap with
  | zero =>
    intro c0 hconv
    exact absurd hconv (by simp [resolveOverlaps])
  | succ cap ih =>
    intro c0 hconv a ha b hb hrel
    have hunfold : resolveOverlaps ns minGap (cap + 1) c0 =
        (if (detectionPass ns minGap c0).2 = []
         then ((detectionPass ns minGap c0).1, [], true)
         else ((resolveOverlaps ns minGap cap (detectionPass ns minGap c0).1).1,
           (detectionPass ns minGap c0).2 ++
             (resolveOverlaps ns minGap cap
               (detectionPass ns minGap c0).1).2.1,
           (resolveOverlaps ns minGap cap
             (detectionPass ns minGap c0).1).2.2)) := rfl
    rw [hunfold] at hconv ⊢
    by_cases hp : (detectionPass ns minGap c0).2 = []
    · rw [if_pos hp] at hconv ⊢
      obtain ⟨hfix, hclear⟩ := detectionPass_no_adjust ns minGap c0 hp
      dsimp only
      rw [hfix]
      rcases mem_candidatePairs ns a b ha hb hrel with hm | hm
      · exact hclear (a, b) hm
      · rw [isOverlapping_symm]
        exact hclear (b, a) hm
    · rw [if_neg hp] at hconv ⊢
      exact ih (detectionPass ns minGap c0).1 hconv a ha b hb hrel

/-- Witness for C1: two sibling nodes of height 2 both start at center 0;
one pass pushes the lower one down by 2, the next pass detects nothing,
so the run converges and the pair no longer overlaps. -/
theorem C1_no_overlap_after_convergence_witness :
    (resolveOverlaps ([⟨[0], 2⟩, ⟨[1], 2⟩] : List RNode) 0 3
      (fun _ => (0 : ℚ))).2.2 = true ∧
    isOverlapping
      ((resolveOverlaps ([⟨[0], 2⟩, ⟨[1], 2⟩] : List RNode) 0 3
        (fun _ => (0 : ℚ))).1 [0]) 2
      ((resolveOverlaps ([⟨[0], 2⟩, ⟨[1], 2⟩] : List RNode) 0 3
        (fun _ => (0 : ℚ))).1 [1]) 2 0 = false := by
  have hpairs : candidatePairs ([⟨[0], 2⟩, ⟨[1], 2⟩] : List RNode) =
      [(⟨[0], 2⟩, ⟨[1], 2⟩)] := rfl
  have hov1 : isOverlapping 0 2 0 2 0 = true := by
    simp only [isOverlapping]
    norm_num
  have hdelta : (0 : ℚ) - calculateActualGap 0 2 0 2 = 2 := by
    norm_num [calculateActualGap]
  have hstep1 : resolvePairStep 0 ((fun _ => (0 : ℚ)), [])
      ((⟨[0], 2⟩ : RNode), (⟨[1], 2⟩ : RNode)) =
      (pushSubtree (fun _ => 0) [1] 2, [⟨[1], 0, 2⟩]) := by
    unfold resolvePairStep
    dsimp only
    rw [if_pos hov1, if_neg (lt_irrefl (0 : ℚ)), if_neg (lt_irrefl (0 : ℚ)),
      hdelta]
    simp
  have hpass1 : detectionPass ([⟨[0], 2⟩, ⟨[1], 2⟩] : List RNode) 0
      (fun _ => (0 : ℚ)) = (pushSubtree (fun _ => 0) [1] 2, [⟨[1], 0, 2⟩]) := by
    unfold detectionPass
    rw [hpairs]
    simp only [List.foldl_cons, List.foldl_nil]
    exact hstep1
  have hc10 : pushSubtree (fun _ => (0 : ℚ)) [1] 2 [0] = 0 := by
    unfold pushSubtree
    rw [if_neg (by decide)]
  have hc11 : pushSubtree (fun _ => (0 : ℚ)) [1] 2 [1] = 2 := by
    unfold pushSubtree
    rw [if_pos (by decide)]
    norm_num
  have hov2 : isOverlapping (pushSubtree (fun _ => (0 : ℚ)) [1] 2 [0]) 2
      (pushSubtree (fun _ => (0 : ℚ)) [1] 2 [1]) 2 0 = false := by
    rw [hc10, hc11]
    simp only [isOverlapping]
    norm_num
  have hpass2 : detectionPass ([⟨[0], 2⟩, ⟨[1], 2⟩] : List RNode) 0
      (pushSubtree (fun _ => (0 : ℚ)) [1] 2) =
      (pushSubtree (fun _ => 0) [1] 2, []) := by
    unfold detectionPass
    rw [hpairs]
    simp only [List.foldl_cons, List.foldl_nil]
    exact resolvePairStep_no_overlap 0 _ [] _ hov2
  have hconv : (resolveOverlaps ([⟨[0], 2⟩, ⟨[1], 2⟩] : List RNode) 0 3
      (fun _ => (0 : ℚ))).2.2 = true := by
    have hu1 : resolveOverlaps ([⟨[0], 2⟩, ⟨[1], 2⟩] : List RNode) 0 3
        (fun _ => (0 : ℚ)) =
        (if (detectionPass ([⟨[0], 2⟩, ⟨[1], 2⟩] : List RNode) 0
              (fun _ => (0 : ℚ))).2 = []
         then ((detectionPass ([⟨[0], 2⟩, ⟨[1], 2⟩] : List RNode) 0
              (fun _ => (0 : ℚ))).1, [], true)
         else ((resolveOverlaps ([⟨[0], 2⟩, ⟨[1], 2⟩] : List RNode) 0 2
             (detectionPass ([⟨[0], 2⟩, ⟨[1], 2⟩] : List RNode) 0
               (fun _ => (0 : ℚ))).1).1,
           (detectionPass ([⟨[0], 2⟩, ⟨[1], 2⟩] : List RNode) 0
             (fun _ => (0 : ℚ))).2 ++
             (resolveOverlaps ([⟨[0], 2⟩, ⟨[1], 2⟩] : List RNode) 0 2
               (detectionPass ([⟨[0], 2⟩, ⟨[1], 2⟩] : List RNode) 0
                 (fun _ => (0 : ℚ))).1).2.1,
           (resolveOverlaps ([⟨[0], 2⟩, ⟨[1], 2⟩] : List RNode) 0 2
             (detectionPass ([⟨[0], 2⟩, ⟨[1], 2⟩] : List RNode) 0
               (fun _ => (0 : ℚ))).1).2.2)) := rfl
    rw [hu1, hpass1]
    rw [if_neg (by simp)]
    dsimp only
    have hu2 : resolveOverlaps ([⟨[0], 2⟩, ⟨[1], 2⟩] : List RNode) 0 2
        (pushSubtree (fun _ => (0 : ℚ)) [1] 2) =
        (if (detectionPass ([⟨[0], 2⟩, ⟨[1], 2⟩] : List RNode) 0
              (pushSubtree (fun _ => (0 : ℚ)) [1] 2)).2 = []
         then ((detectionPass ([⟨[0], 2⟩, ⟨[1], 2⟩] : List RNode) 0
              (pushSubtree (fun _ => (0 : ℚ)) [1] 2)).1, [], true)
         else ((resolveOverlaps ([⟨[0], 2⟩, ⟨[1], 2⟩] : List RNode) 0 1
             (detectionPass ([⟨[0], 2⟩, ⟨[1], 2⟩] : List RNode) 0
               (pushSubtree (fun _ => (0 : ℚ)) [1] 2)).1).1,
           (detectionPass ([⟨[0], 2⟩, ⟨[1], 2⟩] : List RNode) 0
             (pushSubtree (fun _ => (0 : ℚ)) [1] 2)).2 ++
             (resolveOverlaps ([⟨[0], 2⟩, ⟨[1], 2⟩] : List RNode) 0 1
               (detectionPass ([⟨[0], 2⟩, ⟨[1], 2⟩] : List RNode) 0
                 (pushSubtree (fun _ => (0 : ℚ)) [1] 2)).1).2.1,
           (resolveOverlaps ([⟨[0], 2⟩, ⟨[1], 2⟩] : List RNode) 0 1
             (detectionPass ([⟨[0], 2⟩, ⟨[1], 2⟩] : List RNode) 0
               (pushSubtree (fun _ => (0 : ℚ)) [1] 2)).1).2.2)) := rfl
    rw [hu2, hpass2]
    simp
  refine ⟨hconv, ?_⟩
  exact C1_no_overlap_after_convergence ([⟨[0], 2⟩, ⟨[1], 2⟩] : List RNode) 0 3
    (fun _ => (0 : ℚ)) hconv ⟨[0], 2⟩ (List.mem_cons_self _ _) ⟨[1], 2⟩
    (List.mem_cons_of_mem _ (List.mem_cons_self _ _)) (by decide)

end MindMap
